import Mathlib

/-!
Verification of the whisper transcription service script.

The development embeds the three parts of the script as pure Lean
functions: the repetition collapser over character lists, the
transcription invoker as a function of the engine outcome with the
diagnostic stream threaded as explicit state, and the command-line
entry point as a function from the argument vector, a file-existence
oracle, and the engine outcome to the emitted JSON objects and the
process exit code.
-/

namespace WhisperService

/-- Sentence-ending punctuation: the three characters of the character
class used by the splitting regex (period, exclamation mark, question
mark). -/
def isTerm (c : Char) : Bool := c = '.' || c = '!' || c = '?'

/-- ASCII whitespace removed by the strip calls in the source (space,
tab, newline, carriage return, vertical tab, form feed). -/
def pySpace (c : Char) : Bool :=
  c = ' ' || c = '\t' || c = '\n' || c = '\r' || c = '\x0b' || c = '\x0c'

/-- The strip operation: drop leading and trailing whitespace. -/
def trimL (l : List Char) : List Char :=
  ((l.dropWhile pySpace).reverse.dropWhile pySpace).reverse

/-- ASCII case folding, the case-insensitive comparison of the source. -/
def lowerL (l : List Char) : List Char := l.map Char.toLower

/-- The parts list produced by splitting on a captured single terminator:
alternating bodies and separators, rendered as (body, separator) pairs.
Every separator is a single terminator character except the final pair,
whose separator is empty (a trailing fragment with no terminator). -/
def splitPunct : List Char → List (List Char × List Char)
  | [] => [([], [])]
  | c :: rest =>
      if isTerm c then ([], [c]) :: splitPunct rest
      else
        match splitPunct rest with
        | (b, p) :: tail => (c :: b, p) :: tail
        | [] => [([c], [])]

/-- One step of the sentence-collection loop: strip the body, skip the
pair when the stripped body is empty, otherwise attach the terminator
and strip the result. -/
def sentPair (q : List Char × List Char) : Option (List Char) :=
  if trimL q.1 = [] then none else some (trimL (trimL q.1 ++ q.2))

/-- The sentences the loop extracts from the raw text, in order. -/
def sentencesOf (l : List Char) : List (List Char) :=
  (splitPunct l).filterMap sentPair

/-- Grouping of consecutive case-insensitively equal sentences into runs:
t is the text stored when the current run began and c its count so far. -/
def groupAux (t : List Char) (c : Nat) : List (List Char) → List (List Char × Nat)
  | [] => [(t, c)]
  | s :: rest =>
      if lowerL t = lowerL s then groupAux t (c + 1) rest
      else (t, c) :: groupAux s 1 rest

/-- The run list of a sentence sequence. -/
def groupRuns : List (List Char) → List (List Char × Nat)
  | [] => []
  | s :: rest => groupAux s 1 rest

/-- The literal loop body over the sentences list: bump the count of the
last run when the new sentence matches its stored text
case-insensitively, otherwise append a fresh run of count one. -/
def runStep (acc : List (List Char × Nat)) (full : List Char) : List (List Char × Nat) :=
  match acc.getLast? with
  | some last =>
      if lowerL last.1 = lowerL full then acc.dropLast ++ [(last.1, last.2 + 1)]
      else acc ++ [(full, 1)]
  | none => acc ++ [(full, 1)]

/-- The run list computed exactly as the source loop does, by a left
fold starting from the empty list. -/
def groupRunsFold (l : List (List Char)) : List (List Char × Nat) :=
  l.foldl runStep []

/-- The cleaned-sentence emission: each run contributes
min(count, maxRepeats) copies of its stored text. -/
def expandRuns (maxRepeats : Nat) (runs : List (List Char × Nat)) : List (List Char) :=
  runs.flatMap (fun r => List.replicate (min r.2 maxRepeats) r.1)

/-- Joining with single spaces. -/
def joinSp : List (List Char) → List Char
  | [] => []
  | [s] => s
  | s :: rest => s ++ ' ' :: joinSp rest

/-- The repetition collapser over character lists: split into sentences,
group case-insensitive consecutive repeats into runs, emit each run at
most maxRepeats times, join with spaces and strip. -/
def dedupeL (l : List Char) (maxRepeats : Nat) : List Char :=
  trimL (joinSp (expandRuns maxRepeats (groupRuns (sentencesOf l))))

/-- The repetition collapser of the source: remove excessive consecutive
sentence repetitions, keeping up to max_repeats of the same sentence in
a row (the source calls it with max_repeats = 2). -/
def _dedupe_repetitions (text : String) (max_repeats : Nat) : String :=
  String.mk (dedupeL text.data max_repeats)

/-- The cleaned list built by the collapser for a given text, before the
final join: the sequence of sentences of the returned string. -/
def cleanedOf (text : String) (maxRepeats : Nat) : List (List Char) :=
  expandRuns maxRepeats (groupRuns (sentencesOf text.data))

/-- The run list of the cleaned output with every count cut to the cap,
run order and stored texts unchanged. -/
def collapseCounts (m : Nat) (runs : List (List Char × Nat)) : List (List Char × Nat) :=
  runs.map (fun r => (r.1, min r.2 m))

/-- Every run count of the list is at most m. -/
def runsBounded (m : Nat) (runs : List (List Char × Nat)) : Bool :=
  runs.all (fun r => decide (r.2 ≤ m))

/-- Where the process diagnostic stream currently points: the original
stderr of the process, or the null sink it is redirected to. -/
inductive Stream where
  | original
  | devnull
deriving DecidableEq

/-- Outcome of the external engine call (model load plus transcribe):
either raw text, or an exception carrying a message. -/
inductive EngineOutcome where
  | ok (rawText : String)
  | raises (msg : String)

/-- The result dictionary of the invoker: text, status, and the error
message present only on the failure path. -/
structure TranscriptionResult where
  text : String
  status : String
  error : Option String
deriving DecidableEq

/-- The transcription invoker. The body redirects the diagnostic stream
to the null sink, runs the engine, and on the success path restores the
stream to the process original and returns the collapsed text; the
exception handler returns the error result directly, so the stream is
left where the failing path put it. The second component is where the
diagnostic stream points when the function returns. -/
def transcribe_audio (engine : EngineOutcome) (_stderr0 : Stream) :
    TranscriptionResult × Stream :=
  match engine with
  | EngineOutcome.ok raw =>
      ({ text := String.mk (dedupeL (trimL raw.data) 2),
         status := "success", error := none }, Stream.original)
  | EngineOutcome.raises msg =>
      ({ text := "", status := "error", error := some msg }, Stream.devnull)

/-- The dictionary serialized by the entry point for a transcription
result, with keys in insertion order; the error key exists only on the
failure path. -/
def resultFields (r : TranscriptionResult) : List (String × String) :=
  match r.error with
  | none => [("text", r.text), ("status", r.status)]
  | some e => [("text", r.text), ("status", r.status), ("error", e)]

/-- The command-line entry point: missing argument and missing file are
reported as an object with a single error key and exit code one; any
other invocation prints the invoker result and exits with code zero.
The first component lists the objects printed to standard output. -/
def mainPy (argv : List String) (fileExists : String → Bool)
    (engine : EngineOutcome) : List (List (String × String)) × Nat :=
  match argv with
  | _prog :: audioPath :: _rest =>
      if fileExists audioPath then
        ([resultFields (transcribe_audio engine Stream.original).1], 0)
      else
        ([[("error", "File not found: " ++ audioPath)]], 1)
  | _ => ([[("error", "No audio file provided")]], 1)

/-- Lower-case hexadecimal digit, as in JSON unicode escapes. -/
def hexDigit (n : Nat) : Char := List.getD "0123456789abcdef".data n '0'

/-- JSON string escaping of one character, as the serializer of the
standard library escapes it: the two-character escapes for backslash,
quote, backspace, form feed, newline, carriage return and tab, a
four-digit unicode escape for the remaining control characters, and the
character itself otherwise (non-ASCII characters are kept literally,
which stays valid JSON). -/
def escChar (c : Char) : List Char :=
  if c = '\\' then ['\\', '\\']
  else if c = '"' then ['\\', '"']
  else if c = '\x08' then ['\\', 'b']
  else if c = '\x0c' then ['\\', 'f']
  else if c = '\n' then ['\\', 'n']
  else if c = '\r' then ['\\', 'r']
  else if c = '\t' then ['\\', 't']
  else if c.toNat < 32 then
    '\\' :: 'u' :: '0' :: '0' :: [hexDigit (c.toNat / 16), hexDigit (c.toNat % 16)]
  else [c]

/-- A JSON string literal: quote, escaped characters, quote. -/
def jsonStrL (s : String) : List Char :=
  '"' :: s.data.flatMap escChar ++ ['"']

/-- One key-value entry of a serialized object, with the default
key-value separator of the serializer. -/
def entryL (kv : String × String) : List Char :=
  jsonStrL kv.1 ++ ':' :: ' ' :: jsonStrL kv.2

/-- The comma-separated entries of a serialized object. -/
def innerL : List (String × String) → List Char
  | [] => []
  | [kv] => entryL kv
  | kv :: rest => entryL kv ++ ',' :: ' ' :: innerL rest

/-- Serialization of a string-to-string object, as the json.dumps call
of the entry point renders the printed dictionaries. -/
def dumpsL (obj : List (String × String)) : List Char :=
  '\x7b' :: innerL obj ++ ['\x7d']

/-! Equivalence of the literal fold of the source loop with the
recursive run grouping used by the proofs. -/

lemma foldl_runStep_concat (rest : List (List Char)) :
    ∀ (acc : List (List Char × Nat)) (t : List Char) (c : Nat),
      List.foldl runStep (acc ++ [(t, c)]) rest = acc ++ groupAux t c rest := by
  induction rest with
  | nil => intro acc t c; simp [groupAux]
  | cons s rest ih =>
      intro acc t c
      simp only [List.foldl_cons]
      by_cases h : lowerL t = lowerL s
      · have hs : runStep (acc ++ [(t, c)]) s = acc ++ [(t, c + 1)] := by
          simp [runStep, List.getLast?_concat, List.dropLast_concat, h]
        rw [hs, ih acc t (c + 1)]
        simp [groupAux, h]
      · have hs : runStep (acc ++ [(t, c)]) s = (acc ++ [(t, c)]) ++ [(s, 1)] := by
          simp [runStep, List.getLast?_concat, h]
        rw [hs, ih (acc ++ [(t, c)]) s 1]
        simp [groupAux, h]

theorem groupRunsFold_eq (l : List (List Char)) : groupRunsFold l = groupRuns l := by
  cases l with
  | nil => rfl
  | cons s rest =>
      have h0 : runStep [] s = [] ++ [(s, 1)] := by simp [runStep]
      show List.foldl runStep (runStep [] s) rest = groupAux s 1 rest
      rw [h0, foldl_runStep_concat rest [] s 1, List.nil_append]

/-! Facts about the character classes. -/

lemma isTerm_not_space {c : Char} (h : isTerm c = true) : pySpace c = false := by
  simp [isTerm] at h
  rcases h with (h | h) | h <;> subst h <;> decide

lemma pySpace_not_term {c : Char} (h : pySpace c = true) : isTerm c = false := by
  simp [pySpace] at h
  rcases h with ((((h | h) | h) | h) | h) | h <;> subst h <;> decide

/-! Facts about dropWhile and the strip operation. -/

lemma dropWhile_cons_false {p : Char → Bool} {x : Char} (xs : List Char)
    (h : p x = false) : (x :: xs).dropWhile p = x :: xs := by
  simp [List.dropWhile_cons, h]

lemma dropWhile_head_false {p : Char → Bool} {l : List Char} {c : Char} {r : List Char}
    (h : l.dropWhile p = c :: r) : p c = false := by
  induction l with
  | nil => simp at h
  | cons x xs ih =>
      by_cases hx : p x = true
      · rw [List.dropWhile_cons, if_pos hx] at h
        exact ih h
      · rw [List.dropWhile_cons, if_neg hx] at h
        injection h with h1 _
        subst h1
        simpa using hx

lemma dropWhile_idem {p : Char → Bool} (l : List Char) :
    (l.dropWhile p).dropWhile p = l.dropWhile p := by
  cases h : l.dropWhile p with
  | nil => rfl
  | cons c r => exact dropWhile_cons_false r (dropWhile_head_false h)

lemma dropWhile_getLast? {p : Char → Bool} (l : List Char)
    (h : l.dropWhile p ≠ []) : (l.dropWhile p).getLast? = l.getLast? := by
  induction l with
  | nil => simp at h
  | cons x xs ih =>
      by_cases hx : p x = true
      · rw [List.dropWhile_cons, if_pos hx] at h ⊢
        have hxs : xs ≠ [] := by
          intro he
          subst he
          simp at h
        obtain ⟨y, ys, rfl⟩ := List.exists_cons_of_ne_nil hxs
        rw [ih h, List.getLast?_cons_cons]
      · rw [List.dropWhile_cons, if_neg hx]

lemma mem_of_mem_dropWhile {p : Char → Bool} {l : List Char} {x : Char}
    (h : x ∈ l.dropWhile p) : x ∈ l := by
  induction l with
  | nil => simp at h
  | cons a as ih =>
      by_cases ha : p a = true
      · rw [List.dropWhile_cons, if_pos ha] at h
        exact List.mem_cons_of_mem a (ih h)
      · rw [List.dropWhile_cons, if_neg ha] at h
        exact h

/-- Both ends of the list are clean: dropping whitespace removes nothing
from the front of the list or of its reversal. -/
def goodCore (l : List Char) : Prop :=
  l.dropWhile pySpace = l ∧ l.reverse.dropWhile pySpace = l.reverse

lemma goodCore_nil : goodCore [] := ⟨rfl, rfl⟩

lemma trimL_noop {l : List Char} (h : goodCore l) : trimL l = l := by
  unfold trimL
  rw [h.1, h.2, List.reverse_reverse]

lemma goodCore_trimL (l : List Char) : goodCore (trimL l) := by
  have hrev : (trimL l).reverse = (l.dropWhile pySpace).reverse.dropWhile pySpace := by
    unfold trimL
    rw [List.reverse_reverse]
  constructor
  · cases htl : trimL l with
    | nil => rfl
    | cons c r =>
        refine dropWhile_cons_false r ?_
        have hBne : (l.dropWhile pySpace).reverse.dropWhile pySpace ≠ [] := by
          rw [← hrev, htl]
          simp
        have hlast := dropWhile_getLast? (l.dropWhile pySpace).reverse hBne
        have hgl : ((l.dropWhile pySpace).reverse.dropWhile pySpace).getLast? = some c := by
          have h1 : (trimL l).head? = some c := by rw [htl]; rfl
          unfold trimL at h1
          rwa [List.head?_reverse] at h1
        rw [hlast, List.getLast?_reverse] at hgl
        cases hA : l.dropWhile pySpace with
        | nil => rw [hA] at hgl; simp at hgl
        | cons a as =>
            rw [hA] at hgl
            simp at hgl
            subst hgl
            exact dropWhile_head_false hA
  · rw [hrev]
    have h2 : (trimL l).reverse.reverse = (trimL l) := List.reverse_reverse _
    calc ((l.dropWhile pySpace).reverse.dropWhile pySpace).dropWhile pySpace
        = (l.dropWhile pySpace).reverse.dropWhile pySpace := dropWhile_idem _

lemma trimL_idem (l : List Char) : trimL (trimL l) = trimL l :=
  trimL_noop (goodCore_trimL l)

lemma trimL_cons_space {c : Char} (h : pySpace c = true) (l : List Char) :
    trimL (c :: l) = trimL l := by
  unfold trimL
  rw [List.dropWhile_cons, if_pos h]

lemma mem_trimL {l : List Char} {x : Char} (h : x ∈ trimL l) : x ∈ l := by
  unfold trimL at h
  rw [List.mem_reverse] at h
  have h2 := mem_of_mem_dropWhile h
  rw [List.mem_reverse] at h2
  exact mem_of_mem_dropWhile h2

lemma goodCore_head_false {l : List Char} {c : Char} {r : List Char}
    (hg : goodCore l) (h : l = c :: r) : pySpace c = false :=
  dropWhile_head_false (h ▸ hg.1)

lemma dropWhile_append_of_goodCore {l : List Char} (z : List Char)
    (hg : goodCore l) (hne : l ≠ []) : (l ++ z).dropWhile pySpace = l ++ z := by
  cases hl : l with
  | nil => exact absurd hl hne
  | cons c r =>
      have hc : pySpace c = false := goodCore_head_false hg hl
      rw [List.cons_append]
      exact dropWhile_cons_false _ hc

lemma goodCore_append_term {b : List Char} {t : Char} (hg : goodCore b) (hne : b ≠ [])
    (ht : pySpace t = false) : goodCore (b ++ [t]) := by
  constructor
  · exact dropWhile_append_of_goodCore [t] hg hne
  · have h1 : (b ++ [t]).reverse = t :: b.reverse := by simp
    rw [h1]
    exact dropWhile_cons_false _ ht

lemma trimL_ne_nil {c : Char} {y : List Char} (hc : pySpace c = false) :
    trimL (c :: y) ≠ [] := by
  unfold trimL
  rw [dropWhile_cons_false y hc]
  intro h
  rw [List.reverse_eq_nil_iff, List.dropWhile_eq_nil_iff] at h
  have h2 := h c (by simp)
  rw [hc] at h2
  exact Bool.false_ne_true h2

/-! Structure of the splitter output. -/

/-- No character of the list is a terminator. -/
def noTermL (l : List Char) : Prop := ∀ x ∈ l, isTerm x = false

lemma splitPunct_ne_nil (l : List Char) : splitPunct l ≠ [] := by
  cases l with
  | nil => simp [splitPunct]
  | cons c rest =>
      by_cases h : isTerm c = true
      · simp [splitPunct, h]
      · cases hs : splitPunct rest with
        | nil => simp [splitPunct, h, hs]
        | cons q tail => simp [splitPunct, h, hs]

lemma splitPunct_body_term {t : Char} (ht : isTerm t = true) :
    ∀ (b : List Char), noTermL b → ∀ rem,
      splitPunct (b ++ t :: rem) = (b, [t]) :: splitPunct rem := by
  intro b
  induction b with
  | nil =>
      intro _ rem
      simp [splitPunct, ht]
  | cons c b ih =>
      intro hb rem
      have hc : isTerm c = false := hb c (List.mem_cons_self c b)
      have hrest := ih (fun x hx => hb x (List.mem_cons_of_mem c hx)) rem
      rw [List.cons_append]
      simp [splitPunct, hc, hrest]

lemma splitPunct_noTerm : ∀ b : List Char, noTermL b → splitPunct b = [(b, [])] := by
  intro b
  induction b with
  | nil => intro _; rfl
  | cons c b ih =>
      intro hb
      have hc : isTerm c = false := hb c (List.mem_cons_self c b)
      have hrest := ih (fun x hx => hb x (List.mem_cons_of_mem c hx))
      simp [splitPunct, hc, hrest]

lemma splitPunct_struct (l : List Char) :
    ∃ ps b, splitPunct l = ps ++ [(b, [])] ∧
      (∀ q ∈ ps, ∃ t, q.2 = [t] ∧ isTerm t = true) ∧
      (∀ q ∈ ps, noTermL q.1) ∧ noTermL b := by
  induction l with
  | nil =>
      refine ⟨[], [], rfl, by simp, by simp, ?_⟩
      intro x hx
      simp at hx
  | cons c rest ih =>
      obtain ⟨ps, b, hsp, hterm, hnt, hb⟩ := ih
      by_cases hc : isTerm c = true
      · refine ⟨([], [c]) :: ps, b, ?_, ?_, ?_, hb⟩
        · simp [splitPunct, hc, hsp]
        · intro q hq
          rcases List.mem_cons.mp hq with h | h
          · exact ⟨c, by rw [h], hc⟩
          · exact hterm q h
        · intro q hq
          rcases List.mem_cons.mp hq with h | h
          · rw [h]
            intro x hx
            simp at hx
          · exact hnt q h
      · have hcf : isTerm c = false := by simpa using hc
        cases ps with
        | nil =>
            refine ⟨[], c :: b, ?_, by simp, by simp, ?_⟩
            · rw [List.nil_append] at hsp
              simp [splitPunct, hcf, hsp]
            · intro x hx
              rcases List.mem_cons.mp hx with h | h
              · subst h; exact hcf
              · exact hb x h
        | cons q ps2 =>
            obtain ⟨qb, qp⟩ := q
            refine ⟨(c :: qb, qp) :: ps2, b, ?_, ?_, ?_, hb⟩
            · rw [List.cons_append] at hsp
              simp [splitPunct, hcf, hsp]
            · intro x hx
              rcases List.mem_cons.mp hx with h | h
              · subst h
                obtain ⟨t, h1, h2⟩ := hterm (qb, qp) (List.mem_cons_self _ _)
                exact ⟨t, h1, h2⟩
              · exact hterm x (List.mem_cons_of_mem _ h)
            · intro x hx
              rcases List.mem_cons.mp hx with h | h
              · subst h
                intro y hy
                rcases List.mem_cons.mp hy with h2 | h2
                · subst h2; exact hcf
                · exact hnt (qb, qp) (List.mem_cons_self _ _) y h2
              · exact hnt x (List.mem_cons_of_mem _ h)

/-! The shape of the sentences the splitter emits. -/

/-- A sentence ending with a terminator: a nonempty clean body followed
by one terminator character. -/
def termSent (s : List Char) : Prop :=
  ∃ b t, s = b ++ [t] ∧ isTerm t = true ∧ noTermL b ∧ goodCore b ∧ b ≠ []

/-- A terminator-free sentence: nonempty, clean at both ends, no
terminator anywhere. -/
def freeSent (s : List Char) : Prop := noTermL s ∧ goodCore s ∧ s ≠ []

/-- Well-formedness of a sentence sequence: every element has one of the
two shapes, and only the final one may lack the terminator. -/
def sentList (L : List (List Char)) : Prop :=
  (∀ s ∈ L.dropLast, termSent s) ∧ (∀ s ∈ L, termSent s ∨ freeSent s)

lemma mem_of_mem_dropLast {α : Type} {l : List α} {x : α} (h : x ∈ l.dropLast) :
    x ∈ l := by
  induction l with
  | nil => simp at h
  | cons a as ih =>
      cases as with
      | nil => simp at h
      | cons b bs =>
          have hd : (a :: b :: bs).dropLast = a :: (b :: bs).dropLast := rfl
          rw [hd] at h
          rcases List.mem_cons.mp h with h2 | h2
          · subst h2; exact List.mem_cons_self _ _
          · exact List.mem_cons_of_mem _ (ih h2)

lemma sentList_of_all_term {L : List (List Char)} (h : ∀ s ∈ L, termSent s) :
    sentList L :=
  ⟨fun s hs => h s (mem_of_mem_dropLast hs), fun s hs => Or.inl (h s hs)⟩

lemma sentList_of_cons {s : List Char} {L : List (List Char)}
    (h : sentList (s :: L)) : sentList L := by
  constructor
  · intro x hx
    apply h.1
    cases L with
    | nil => simp at hx
    | cons y ys =>
        have hd : (s :: y :: ys).dropLast = s :: (y :: ys).dropLast := rfl
        rw [hd]
        exact List.mem_cons_of_mem _ hx
  · intro x hx
    exact h.2 x (List.mem_cons_of_mem _ hx)

lemma sentList_head_term {s : List Char} {L : List (List Char)}
    (h : sentList (s :: L)) (hne : L ≠ []) : termSent s := by
  apply h.1
  cases L with
  | nil => exact absurd rfl hne
  | cons y ys =>
      have hd : (s :: y :: ys).dropLast = s :: (y :: ys).dropLast := rfl
      rw [hd]
      exact List.mem_cons_self _ _

lemma sentList_append {A B : List (List Char)} (hA : ∀ s ∈ A, termSent s)
    (hB : sentList B) : sentList (A ++ B) := by
  cases B with
  | nil =>
      rw [List.append_nil]
      exact sentList_of_all_term hA
  | cons b bs =>
      constructor
      · intro s hs
        rw [List.dropLast_append_of_ne_nil _ (by simp)] at hs
        rcases List.mem_append.mp hs with h | h
        · exact hA s h
        · exact hB.1 s h
      · intro s hs
        rcases List.mem_append.mp hs with h | h
        · exact Or.inl (hA s h)
        · exact hB.2 s h

lemma sentList_suffix : ∀ (A B : List (List Char)), sentList (A ++ B) → sentList B := by
  intro A
  induction A with
  | nil => intro B h; exact h
  | cons a A ih =>
      intro B h
      rw [List.cons_append] at h
      exact ih B (sentList_of_cons h)

lemma goodCore_termSent {s : List Char} (h : termSent s) : goodCore s := by
  obtain ⟨b, t, rfl, ht, _, hgb, hbne⟩ := h
  exact goodCore_append_term hgb hbne (isTerm_not_space ht)

lemma goodCore_sent {s : List Char} (h : termSent s ∨ freeSent s) : goodCore s := by
  rcases h with h | h
  · exact goodCore_termSent h
  · exact h.2.1

lemma sent_ne_nil {s : List Char} (h : termSent s ∨ freeSent s) : s ≠ [] := by
  rcases h with ⟨b, t, rfl, _, _, _, _⟩ | h
  · simp
  · exact h.2.2

/-! The sentences of a text form a well-formed sequence. -/

lemma termSent_of_pair {b : List Char} {t : Char} (hb : noTermL b) (ht : isTerm t = true)
    (hne : trimL b ≠ []) :
    sentPair (b, [t]) = some (trimL b ++ [t]) ∧ termSent (trimL b ++ [t]) := by
  have hg : goodCore (trimL b) := goodCore_trimL b
  have hnt : noTermL (trimL b) := fun x hx => hb x (mem_trimL hx)
  have hgt : goodCore (trimL b ++ [t]) := goodCore_append_term hg hne (isTerm_not_space ht)
  constructor
  · simp [sentPair, hne, trimL_noop hgt]
  · exact ⟨trimL b, t, rfl, ht, hnt, hg, hne⟩

lemma freeSent_of_pair {b : List Char} (hb : noTermL b) (hne : trimL b ≠ []) :
    sentPair (b, []) = some (trimL b) ∧ freeSent (trimL b) := by
  have hg : goodCore (trimL b) := goodCore_trimL b
  constructor
  · simp [sentPair, hne, trimL_idem]
  · exact ⟨fun x hx => hb x (mem_trimL hx), hg, hne⟩

lemma sentList_sentencesOf (l : List Char) : sentList (sentencesOf l) := by
  obtain ⟨ps, b, hsp, hterm, hnt, hb⟩ := splitPunct_struct l
  unfold sentencesOf
  rw [hsp, List.filterMap_append]
  apply sentList_append
  · intro s hs
    rcases List.mem_filterMap.mp hs with ⟨q, hq, hqs⟩
    obtain ⟨qb, qp⟩ := q
    obtain ⟨t, hqp, ht⟩ := hterm (qb, qp) hq
    simp only at hqp
    subst hqp
    by_cases hne : trimL qb = []
    · simp [sentPair, hne] at hqs
    · obtain ⟨heq, hts⟩ := termSent_of_pair (hnt (qb, [t]) hq) ht hne
      rw [heq] at hqs
      injection hqs with hqs
      exact hqs ▸ hts
  · by_cases hne : trimL b = []
    · have he : List.filterMap sentPair [(b, [])] = [] := by
        simp [sentPair, hne]
      rw [he]
      exact ⟨by simp, by simp⟩
    · obtain ⟨heq, hfs⟩ := freeSent_of_pair hb hne
      have he : List.filterMap sentPair [(b, [])] = [trimL b] := by
        rw [List.filterMap_cons, heq]
        rfl
      rw [he]
      constructor
      · intro s hs
        simp at hs
      · intro s hs
        rw [List.mem_singleton] at hs
        subst hs
        exact Or.inr hfs

/-! Re-parsing the joined output recovers the sentence list. -/

lemma sentencesOf_cons_space {c : Char} (h : pySpace c = true) (l : List Char) :
    sentencesOf (c :: l) = sentencesOf l := by
  have hct : isTerm c = false := pySpace_not_term h
  cases hs : splitPunct l with
  | nil => exact absurd hs (splitPunct_ne_nil l)
  | cons q tail =>
      obtain ⟨qb, qp⟩ := q
      have hsc : splitPunct (c :: l) = (c :: qb, qp) :: tail := by
        simp [splitPunct, hct, hs]
      unfold sentencesOf
      rw [hsc, hs]
      have hpair : sentPair (c :: qb, qp) = sentPair (qb, qp) := by
        simp [sentPair, trimL_cons_space h qb]
      rw [List.filterMap_cons, List.filterMap_cons, hpair]

lemma joinSp_cons_cons (s y : List Char) (ys : List (List Char)) :
    joinSp (s :: y :: ys) = s ++ ' ' :: joinSp (y :: ys) := rfl

lemma joinSp_ne_nil {s : List Char} (L : List (List Char)) (hne : s ≠ []) :
    joinSp (s :: L) ≠ [] := by
  cases L with
  | nil => exact hne
  | cons y ys =>
      rw [joinSp_cons_cons]
      intro h
      rcases List.append_eq_nil.mp h with ⟨h1, _⟩
      exact hne h1

lemma sentencesOf_joinSp : ∀ L : List (List Char), sentList L →
    sentencesOf (joinSp L) = L := by
  intro L
  induction L with
  | nil => intro _; rfl
  | cons s rest ih =>
      intro h
      cases rest with
      | nil =>
          rcases h.2 s (List.mem_cons_self s []) with hts | hfs
          · obtain ⟨b, t, rfl, ht, hnb, hgb, hbne⟩ := hts
            have htr : trimL b = b := trimL_noop hgb
            have hne2 : trimL b ≠ [] := by rw [htr]; exact hbne
            obtain ⟨heq, _⟩ := termSent_of_pair hnb ht hne2
            show sentencesOf (b ++ [t]) = [b ++ [t]]
            unfold sentencesOf
            rw [show b ++ [t] = b ++ t :: [] from rfl,
              splitPunct_body_term ht b hnb []]
            rw [List.filterMap_cons, heq, htr]
            rfl
          · obtain ⟨hns, hgs, hsne⟩ := hfs
            have htr : trimL s = s := trimL_noop hgs
            have hne2 : trimL s ≠ [] := by rw [htr]; exact hsne
            obtain ⟨heq, _⟩ := freeSent_of_pair hns hne2
            show sentencesOf s = [s]
            unfold sentencesOf
            rw [splitPunct_noTerm s hns]
            rw [List.filterMap_cons, heq, htr]
            rfl
      | cons y ys =>
          have hts : termSent s := sentList_head_term h (by simp)
          obtain ⟨b, t, hbt, ht, hnb, hgb, hbne⟩ := hts
          have hrest := ih (sentList_of_cons h)
          have htr : trimL b = b := trimL_noop hgb
          have hne2 : trimL b ≠ [] := by rw [htr]; exact hbne
          obtain ⟨heq, _⟩ := termSent_of_pair hnb ht hne2
          rw [joinSp_cons_cons, hbt]
          have hsplit : (b ++ [t]) ++ ' ' :: joinSp (y :: ys) =
              b ++ t :: (' ' :: joinSp (y :: ys)) := by simp
          rw [hsplit]
          unfold sentencesOf
          rw [splitPunct_body_term ht b hnb (' ' :: joinSp (y :: ys))]
          rw [List.filterMap_cons, heq, htr]
          have htail : List.filterMap sentPair (splitPunct (' ' :: joinSp (y :: ys))) =
              sentencesOf (' ' :: joinSp (y :: ys)) := rfl
          rw [htail, sentencesOf_cons_space (by decide) _, hrest]

lemma goodCore_joinSp : ∀ L : List (List Char), sentList L → goodCore (joinSp L) := by
  intro L
  induction L with
  | nil => intro _; exact goodCore_nil
  | cons s rest ih =>
      intro h
      cases rest with
      | nil => exact goodCore_sent (h.2 s (List.mem_cons_self _ _))
      | cons y ys =>
          have hgs : goodCore s := goodCore_sent (h.2 s (List.mem_cons_self _ _))
          have hsne : s ≠ [] := sent_ne_nil (h.2 s (List.mem_cons_self _ _))
          have hrest := ih (sentList_of_cons h)
          have hyne : joinSp (y :: ys) ≠ [] :=
            joinSp_ne_nil ys (sent_ne_nil (h.2 y (by simp)))
          rw [joinSp_cons_cons]
          constructor
          · exact dropWhile_append_of_goodCore _ hgs hsne
          · cases hJr : (joinSp (y :: ys)).reverse with
            | nil =>
                rw [List.reverse_eq_nil_iff] at hJr
                exact absurd hJr hyne
            | cons c cr =>
                have hc : pySpace c = false := by
                  have h2 := hrest.2
                  rw [hJr] at h2
                  exact dropWhile_head_false h2
                have hrev : (s ++ ' ' :: joinSp (y :: ys)).reverse =
                    c :: (cr ++ ' ' :: s.reverse) := by
                  rw [List.reverse_append, List.reverse_cons, hJr]
                  simp
                rw [hrev]
                exact dropWhile_cons_false _ hc

/-! Run grouping: invariants and the regrouping of the emitted list. -/

lemma groupAux_nil (t : List Char) (c : Nat) : groupAux t c [] = [(t, c)] := rfl

lemma groupAux_cons (t : List Char) (c : Nat) (s : List Char) (rest : List (List Char)) :
    groupAux t c (s :: rest) =
      if lowerL t = lowerL s then groupAux t (c + 1) rest
      else (t, c) :: groupAux s 1 rest := rfl

lemma groupAux_count_ge : ∀ (l : List (List Char)) (t : List Char) (c : Nat), 1 ≤ c →
    ∀ r ∈ groupAux t c l, 1 ≤ r.2 := by
  intro l
  induction l with
  | nil =>
      intro t c hc r hr
      rw [groupAux_nil, List.mem_singleton] at hr
      subst hr
      exact hc
  | cons s rest ih =>
      intro t c hc r hr
      rw [groupAux_cons] at hr
      by_cases h : lowerL t = lowerL s
      · rw [if_pos h] at hr
        exact ih t (c + 1) (by omega) r hr
      · rw [if_neg h] at hr
        rcases List.mem_cons.mp hr with h2 | h2
        · subst h2; exact hc
        · exact ih s 1 (by omega) r h2

lemma groupAux_chain : ∀ (l : List (List Char)) (t : List Char) (c : Nat),
    ∃ c2 rest2, groupAux t c l = (t, c2) :: rest2 ∧
      List.Chain' (fun a b => lowerL a.1 ≠ lowerL b.1) (groupAux t c l) := by
  intro l
  induction l with
  | nil =>
      intro t c
      exact ⟨c, [], rfl, by rw [groupAux_nil]; simp⟩
  | cons s rest ih =>
      intro t c
      by_cases h : lowerL t = lowerL s
      · obtain ⟨c2, r2, he, hc⟩ := ih t (c + 1)
        rw [groupAux_cons, if_pos h]
        exact ⟨c2, r2, he, hc⟩
      · obtain ⟨c2, r2, he, hc⟩ := ih s 1
        rw [groupAux_cons, if_neg h]
        refine ⟨c, groupAux s 1 rest, rfl, ?_⟩
        rw [he] at hc ⊢
        exact List.Chain'.cons h hc

lemma groupRuns_count_ge (L : List (List Char)) : ∀ r ∈ groupRuns L, 1 ≤ r.2 := by
  cases L with
  | nil => simp [groupRuns]
  | cons s rest => exact groupAux_count_ge rest s 1 (by omega)

lemma groupRuns_chain (L : List (List Char)) :
    List.Chain' (fun a b => lowerL a.1 ≠ lowerL b.1) (groupRuns L) := by
  cases L with
  | nil => simp [groupRuns]
  | cons s rest =>
      obtain ⟨c2, r2, _, hc⟩ := groupAux_chain rest s 1
      exact hc

lemma groupAux_split : ∀ (l : List (List Char)) (t : List Char) (c : Nat),
    ∃ pre post, l = pre ++ post ∧ (∀ s ∈ pre, lowerL t = lowerL s) ∧
      groupAux t c l = (t, c + pre.length) :: groupRuns post ∧
      (∀ hd, post.head? = some hd → lowerL t ≠ lowerL hd) := by
  intro l
  induction l with
  | nil =>
      intro t c
      refine ⟨[], [], rfl, by simp, ?_, by simp⟩
      rw [groupAux_nil]
      simp [groupRuns]
  | cons s rest ih =>
      intro t c
      by_cases h : lowerL t = lowerL s
      · obtain ⟨pre, post, hl, hpre, hga, hpost⟩ := ih t (c + 1)
        refine ⟨s :: pre, post, by rw [List.cons_append, ← hl], ?_, ?_, hpost⟩
        · intro x hx
          rcases List.mem_cons.mp hx with h2 | h2
          · subst h2; exact h
          · exact hpre x h2
        · rw [groupAux_cons, if_pos h, hga]
          rw [show c + 1 + pre.length = c + (s :: pre).length from by
            simp [List.length_cons]; omega]
      · refine ⟨[], s :: rest, rfl, by simp, ?_, ?_⟩
        · rw [groupAux_cons, if_neg h]
          simp [groupRuns]
        · intro hd hhd
          simp at hhd
          subst hhd
          exact h

lemma groupAux_replicate (t : List Char) : ∀ (k : Nat) (l : List (List Char)) (c : Nat),
    groupAux t c (List.replicate k t ++ l) = groupAux t (c + k) l := by
  intro k
  induction k with
  | zero => intro l c; simp
  | succ k ih =>
      intro l c
      rw [List.replicate_succ, List.cons_append, groupAux_cons, if_pos rfl]
      rw [ih l (c + 1)]
      rw [show c + 1 + k = c + (k + 1) from by omega]

lemma replicate_head {α : Type} {k : Nat} (h : 1 ≤ k) (s : α) :
    List.replicate k s = s :: List.replicate (k - 1) s := by
  cases k with
  | zero => omega
  | succ n =>
      rw [List.replicate_succ]
      simp

lemma expandRuns_cons (m : Nat) (a : List Char × Nat) (R : List (List Char × Nat)) :
    expandRuns m (a :: R) = List.replicate (min a.2 m) a.1 ++ expandRuns m R := by
  simp [expandRuns]

lemma groupAux_expand (m : Nat) (hm : 1 ≤ m) :
    ∀ (runs : List (List Char × Nat)) (t : List Char) (c : Nat),
      (∀ r ∈ runs, 1 ≤ r.2) →
      List.Chain' (fun a b => lowerL a.1 ≠ lowerL b.1) runs →
      (∀ hd, runs.head? = some hd → lowerL t ≠ lowerL hd.1) →
      groupAux t c (expandRuns m runs) = (t, c) :: collapseCounts m runs := by
  intro runs
  induction runs with
  | nil =>
      intro t c _ _ _
      simp [expandRuns, collapseCounts, groupAux_nil]
  | cons r rest ih =>
      intro t c hcount hchain hhead
      obtain ⟨s, k⟩ := r
      have hk : 1 ≤ k := hcount (s, k) (List.mem_cons_self _ _)
      have hmin : 1 ≤ min k m := le_min hk hm
      rw [expandRuns_cons]
      rw [replicate_head hmin s, List.cons_append, groupAux_cons]
      have hts : lowerL t ≠ lowerL s := hhead (s, k) rfl
      rw [if_neg hts]
      rw [groupAux_replicate s (min k m - 1) (expandRuns m rest) 1]
      rw [show 1 + (min k m - 1) = min k m from by omega]
      have hrest_count : ∀ r2 ∈ rest, 1 ≤ r2.2 :=
        fun r2 h2 => hcount r2 (List.mem_cons_of_mem _ h2)
      have hrest_chain : List.Chain' (fun a b => lowerL a.1 ≠ lowerL b.1) rest :=
        hchain.tail
      have hrest_head : ∀ hd, rest.head? = some hd → lowerL s ≠ lowerL hd.1 := by
        intro hd hhd
        exact (List.chain'_cons'.mp hchain).1 hd hhd
      rw [ih s (min k m) hrest_count hrest_chain hrest_head]
      simp [collapseCounts]

lemma groupRuns_expand (m : Nat) (hm : 1 ≤ m) (runs : List (List Char × Nat))
    (hcount : ∀ r ∈ runs, 1 ≤ r.2)
    (hchain : List.Chain' (fun a b => lowerL a.1 ≠ lowerL b.1) runs) :
    groupRuns (expandRuns m runs) = collapseCounts m runs := by
  cases runs with
  | nil => rfl
  | cons r rest =>
      obtain ⟨s, k⟩ := r
      have hk : 1 ≤ k := hcount (s, k) (List.mem_cons_self _ _)
      have hmin : 1 ≤ min k m := le_min hk hm
      rw [expandRuns_cons, replicate_head hmin s, List.cons_append]
      show groupAux s 1 (List.replicate (min k m - 1) s ++ expandRuns m rest) = _
      rw [groupAux_replicate s (min k m - 1) (expandRuns m rest) 1]
      rw [show 1 + (min k m - 1) = min k m from by omega]
      have hrest_count : ∀ r2 ∈ rest, 1 ≤ r2.2 :=
        fun r2 h2 => hcount r2 (List.mem_cons_of_mem _ h2)
      have hrest_head : ∀ hd, rest.head? = some hd → lowerL s ≠ lowerL hd.1 := by
        intro hd hhd
        exact (List.chain'_cons'.mp hchain).1 hd hhd
      rw [groupAux_expand m hm rest s (min k m) hrest_count hchain.tail hrest_head]
      simp [collapseCounts]

lemma expandRuns_collapse (m : Nat) (runs : List (List Char × Nat)) :
    expandRuns m (collapseCounts m runs) = expandRuns m runs := by
  induction runs with
  | nil => rfl
  | cons r rest ih =>
      obtain ⟨s, k⟩ := r
      have h1 : collapseCounts m ((s, k) :: rest) =
          (s, min k m) :: collapseCounts m rest := rfl
      rw [h1, expandRuns_cons, expandRuns_cons, ih]
      rw [show min (min k m) m = min k m from by rw [min_assoc, min_self]]

/-! Decomposition of a sentence list into the blocks behind its runs. -/

lemma groupRuns_blocks : ∀ L : List (List Char),
    ∃ blocks : List (List (List Char)),
      L = blocks.flatten ∧
      List.Forall₂ (fun b r => b.head? = some r.1 ∧ b.length = r.2 ∧
        ∀ s ∈ b, lowerL s = lowerL r.1) blocks (groupRuns L) := by
  suffices h : ∀ (n : Nat) (L : List (List Char)), L.length = n →
      ∃ blocks : List (List (List Char)),
        L = blocks.flatten ∧
        List.Forall₂ (fun b r => b.head? = some r.1 ∧ b.length = r.2 ∧
          ∀ s ∈ b, lowerL s = lowerL r.1) blocks (groupRuns L) by
    intro L
    exact h L.length L rfl
  intro n
  induction n using Nat.strong_induction_on with
  | _ n ih =>
      intro L hn
      cases L with
      | nil => exact ⟨[], rfl, List.Forall₂.nil⟩
      | cons s rest =>
          obtain ⟨pre, post, hl, hpre, hga, _⟩ := groupAux_split rest s 1
          have hplen : post.length < n := by
            have h2 := congrArg List.length hl
            rw [List.length_append] at h2
            rw [← hn]
            simp [List.length_cons]
            omega
          obtain ⟨blocks2, hfl, hfa⟩ := ih post.length hplen post rfl
          refine ⟨(s :: pre) :: blocks2, ?_, ?_⟩
          · rw [List.flatten_cons, ← hfl, List.cons_append, ← hl]
          · show List.Forall₂ _ ((s :: pre) :: blocks2) (groupRuns (s :: rest))
            have hgr : groupRuns (s :: rest) = (s, 1 + pre.length) :: groupRuns post := hga
            rw [hgr]
            refine List.Forall₂.cons ⟨rfl, by simp [List.length_cons]; omega, ?_⟩ hfa
            intro x hx
            rcases List.mem_cons.mp hx with h2 | h2
            · subst h2; rfl
            · exact (hpre x h2).symm

/-! Well-formedness of the emitted cleaned list. -/

lemma sentList_expand (m : Nat) (hm : 1 ≤ m) :
    ∀ S : List (List Char), sentList S → sentList (expandRuns m (groupRuns S)) := by
  suffices h : ∀ (n : Nat) (S : List (List Char)), S.length = n → sentList S →
      sentList (expandRuns m (groupRuns S)) by
    intro S
    exact h S.length S rfl
  intro n
  induction n using Nat.strong_induction_on with
  | _ n ih =>
      intro S hn hS
      cases S with
      | nil =>
          have he : expandRuns m (groupRuns ([] : List (List Char))) = [] := rfl
          rw [he]
          exact ⟨by simp, by simp⟩
      | cons s rest =>
          by_cases hrest : rest = []
          · subst hrest
            have hgr : groupRuns [s] = [(s, 1)] := rfl
            rw [hgr, expandRuns_cons]
            rw [show min (1 : Nat) m = 1 from by omega]
            show sentList ([s] ++ expandRuns m [])
            rw [show expandRuns m [] = [] from rfl, List.append_nil]
            exact hS
          · have hterm : termSent s := sentList_head_term hS hrest
            obtain ⟨pre, post, hl, _, hga, _⟩ := groupAux_split rest s 1
            have hplen : post.length < n := by
              have h2 := congrArg List.length hl
              rw [List.length_append] at h2
              rw [← hn]
              simp [List.length_cons]
              omega
            have hpost : sentList post :=
              sentList_suffix pre post (hl ▸ sentList_of_cons hS)
            have hE := ih post.length hplen post rfl hpost
            have hgr : groupRuns (s :: rest) = (s, 1 + pre.length) :: groupRuns post := hga
            rw [hgr, expandRuns_cons]
            apply sentList_append ?_ hE
            intro x hx
            rw [List.eq_of_mem_replicate hx]
            exact hterm

/-! Idempotence of the collapser at the level of character lists. -/

lemma dedupeL_idem (l : List Char) (m : Nat) (hm : 1 ≤ m) :
    dedupeL (dedupeL l m) m = dedupeL l m := by
  have hS : sentList (sentencesOf l) := sentList_sentencesOf l
  have hC : sentList (expandRuns m (groupRuns (sentencesOf l))) :=
    sentList_expand m hm _ hS
  have hgc : goodCore (joinSp (expandRuns m (groupRuns (sentencesOf l)))) :=
    goodCore_joinSp _ hC
  have hO : dedupeL l m = joinSp (expandRuns m (groupRuns (sentencesOf l))) := by
    unfold dedupeL
    exact trimL_noop hgc
  rw [hO]
  unfold dedupeL
  rw [sentencesOf_joinSp _ hC]
  rw [groupRuns_expand m hm _ (groupRuns_count_ge _) (groupRuns_chain _)]
  rw [expandRuns_collapse]
  exact trimL_noop hgc

/-! The serialized objects occupy a single line: no character of the
serialization is a newline. -/

lemma hexDigit_ne_nl (n : Nat) : hexDigit n ≠ '\n' := by
  have hall : ∀ x ∈ "0123456789abcdef".data, x ≠ '\n' := by decide
  unfold hexDigit List.getD
  cases h : "0123456789abcdef".data.get? n with
  | none => simp
  | some c => simpa [h] using hall c (List.get?_mem h)

lemma escChar_no_nl (c : Char) : '\n' ∉ escChar c := by
  unfold escChar
  split_ifs with h1 h2 h3 h4 h5 h6 h7 h8
  · decide
  · decide
  · decide
  · decide
  · decide
  · decide
  · decide
  · intro hm
    rcases List.mem_cons.mp hm with h | hm
    · exact absurd h (by decide)
    rcases List.mem_cons.mp hm with h | hm
    · exact absurd h (by decide)
    rcases List.mem_cons.mp hm with h | hm
    · exact absurd h (by decide)
    rcases List.mem_cons.mp hm with h | hm
    · exact absurd h (by decide)
    rcases List.mem_cons.mp hm with h | hm
    · exact hexDigit_ne_nl _ h.symm
    rcases List.mem_cons.mp hm with h | hm
    · exact hexDigit_ne_nl _ h.symm
    · exact absurd hm (by decide)
  · intro hm
    rw [List.mem_singleton] at hm
    exact h5 hm.symm

lemma jsonStrL_no_nl (s : String) : '\n' ∉ jsonStrL s := by
  intro hm
  unfold jsonStrL at hm
  rcases List.mem_cons.mp hm with h | h
  · exact absurd h (by decide)
  rcases List.mem_append.mp h with h | h
  · rcases List.mem_flatMap.mp h with ⟨a, _, ha⟩
    exact escChar_no_nl a ha
  · rw [List.mem_singleton] at h
    exact absurd h (by decide)

lemma entryL_no_nl (kv : String × String) : '\n' ∉ entryL kv := by
  intro hm
  unfold entryL at hm
  rcases List.mem_append.mp hm with h | h
  · exact jsonStrL_no_nl _ h
  rcases List.mem_cons.mp h with h | h
  · exact absurd h (by decide)
  rcases List.mem_cons.mp h with h | h
  · exact absurd h (by decide)
  · exact jsonStrL_no_nl _ h

lemma innerL_no_nl (obj : List (String × String)) : '\n' ∉ innerL obj := by
  induction obj with
  | nil => simp [innerL]
  | cons kv rest ih =>
      cases rest with
      | nil => exact entryL_no_nl kv
      | cons kv2 rest2 =>
          intro hm
          rcases List.mem_append.mp hm with h | h
          · exact entryL_no_nl kv h
          rcases List.mem_cons.mp h with h | h
          · exact absurd h (by decide)
          rcases List.mem_cons.mp h with h | h
          · exact absurd h (by decide)
          · exact ih h

lemma dumpsL_no_nl (obj : List (String × String)) : '\n' ∉ dumpsL obj := by
  intro hm
  unfold dumpsL at hm
  rcases List.mem_cons.mp hm with h | h
  · exact absurd h (by decide)
  rcases List.mem_append.mp h with h | h
  · exact innerL_no_nl obj h
  · rw [List.mem_singleton] at h
    exact absurd h (by decide)

/-- Claim C2 (counterexample): on the input with the three casings of the
same sentence and cap two, the collapser does not return the string the
claim expects, in which the second retained occurrence keeps its own
original casing. -/
theorem C2_counterexample :
    _dedupe_repetitions "Hi. hi. HI. Bye." 2 ≠ "Hi. hi. Bye." := by decide

/-- Claim C2 (amended): for the input with the three casings of the same
sentence and cap two, the collapser returns two copies of the casing of
the first occurrence of the run followed by the distinct sentence: both
retained occurrences are the stored first-seen text. -/
theorem C2_first_casing_collapse :
    _dedupe_repetitions "Hi. hi. HI. Bye." 2 = "Hi. Hi. Bye." := by decide

/-- Claim C6: the three consecutive copies of the first sentence are
collapsed to two under cap two and the final distinct sentence is kept. -/
theorem C6_hello_world_collapse :
    _dedupe_repetitions "Hello world. Hello world. Hello world. Goodbye." 2 =
      "Hello world. Hello world. Goodbye." := by decide

/-- Claim C3 (counterexample): when the engine call raises, the invoker
returns with the diagnostic stream still pointing at the null sink, not
restored to the original stream it had on entry. -/
theorem C3_counterexample :
    (transcribe_audio (EngineOutcome.raises "boom") Stream.original).2 ≠ Stream.original ∧
    (transcribe_audio (EngineOutcome.raises "boom") Stream.original).2 = Stream.devnull :=
  ⟨by decide, rfl⟩

/-- Claim C3 (amended): the diagnostic stream is restored to the process
original after a successful engine call, but when the engine call raises
the exception handler returns with the stream still redirected to the
null sink. -/
theorem C3_stderr_restoration (raw msg : String) (s0 : Stream) :
    (transcribe_audio (EngineOutcome.ok raw) s0).2 = Stream.original ∧
    (transcribe_audio (EngineOutcome.raises msg) s0).2 = Stream.devnull :=
  ⟨rfl, rfl⟩

/-- Claim C5: the invoker never propagates an engine exception: a raised
exception with message msg yields exactly the error result with empty
text, error status and that message, and every result carries a status
that is either success or error. -/
theorem C5_engine_error_result (engine : EngineOutcome) (s0 : Stream) :
    ((transcribe_audio engine s0).1.status = "success" ∨
      (transcribe_audio engine s0).1.status = "error") ∧
    (match engine with
     | EngineOutcome.ok _ => (transcribe_audio engine s0).1.status = "success"
     | EngineOutcome.raises msg =>
         (transcribe_audio engine s0).1 =
           { text := "", status := "error", error := some msg }) := by
  cases engine with
  | ok raw => exact ⟨Or.inl rfl, rfl⟩
  | raises msg => exact ⟨Or.inr rfl, rfl⟩

/-- Claim C7: the entry point exits with code one and prints an object
whose only key is the error key exactly when a precondition fails: no
audio-path argument, or a path that does not exist (echoed literally in
the message); with an existing path it exits with code zero whatever the
engine outcome. -/
theorem C7_cli_exit_codes (argv : List String) (fE : String → Bool)
    (engine : EngineOutcome) :
    match argv with
    | _ :: path :: _ =>
        if fE path then (mainPy argv fE engine).2 = 0
        else mainPy argv fE engine = ([[("error", "File not found: " ++ path)]], 1)
    | _ => mainPy argv fE engine = ([[("error", "No audio file provided")]], 1) := by
  rcases argv with _ | ⟨p, _ | ⟨a, r⟩⟩
  · rfl
  · rfl
  · by_cases h : fE a = true
    · simp only [h, if_true]
      simp [mainPy, h]
    · simp [mainPy, h]

/-- Claim C9: every invocation of the entry point prints exactly one
object to standard output, and its serialization contains no newline, so
standard output is a single line of JSON. -/
theorem C9_single_json_line (argv : List String) (fE : String → Bool)
    (engine : EngineOutcome) :
    ∃ obj, (mainPy argv fE engine).1 = [obj] ∧ '\n' ∉ dumpsL obj := by
  rcases argv with _ | ⟨p, _ | ⟨a, r⟩⟩
  · exact ⟨_, rfl, dumpsL_no_nl _⟩
  · exact ⟨_, rfl, dumpsL_no_nl _⟩
  · by_cases h : fE a = true
    · refine ⟨resultFields (transcribe_audio engine Stream.original).1, ?_, dumpsL_no_nl _⟩
      simp [mainPy, h]
    · refine ⟨[("error", "File not found: " ++ a)], ?_, dumpsL_no_nl _⟩
      simp [mainPy, h]

/-- Claim C1: for every text and every cap of at least one, the run list
of the cleaned output equals the run list of the input sentences with
every count cut to the cap and order and stored texts unchanged; in
particular no run of the output exceeds the cap, and a run whose count
was already within the cap keeps its count and its position. -/
theorem C1_collapser_run_invariant (text : String) (m : Nat) (h : 1 ≤ m) :
    groupRuns (cleanedOf text m) = collapseCounts m (groupRuns (sentencesOf text.data)) ∧
    runsBounded m (groupRuns (cleanedOf text m)) = true := by
  have hmain : groupRuns (cleanedOf text m) =
      collapseCounts m (groupRuns (sentencesOf text.data)) :=
    groupRuns_expand m h _ (groupRuns_count_ge _) (groupRuns_chain _)
  refine ⟨hmain, ?_⟩
  rw [hmain]
  rw [runsBounded, List.all_eq_true]
  intro r hr
  rcases List.mem_map.mp hr with ⟨r0, _, hrr⟩
  rw [← hrr]
  simp [decide_eq_true_eq]

/-- Claim C1, instantiated at a concrete text and cap two. -/
theorem C1_witness :
    groupRuns (cleanedOf "Go. go. go. Stop." 2) =
      collapseCounts 2 (groupRuns (sentencesOf ("Go. go. go. Stop." : String).data)) ∧
    runsBounded 2 (groupRuns (cleanedOf "Go. go. go. Stop." 2)) = true :=
  C1_collapser_run_invariant "Go. go. go. Stop." 2 (by decide)

/-- Claim C4: the collapser is idempotent for every cap of at least one:
collapsing its own output changes nothing. -/
theorem C4_collapser_idempotent (text : String) (m : Nat) (h : 1 ≤ m) :
    _dedupe_repetitions (_dedupe_repetitions text m) m = _dedupe_repetitions text m := by
  unfold _dedupe_repetitions
  rw [show (String.mk (dedupeL text.data m)).data = dedupeL text.data m from rfl]
  rw [dedupeL_idem text.data m h]

/-- Claim C4, instantiated at a concrete text and cap two. -/
theorem C4_witness :
    _dedupe_repetitions (_dedupe_repetitions "A. A. A. B." 2) 2 =
      _dedupe_repetitions "A. A. A. B." 2 :=
  C4_collapser_idempotent "A. A. A. B." 2 (by decide)

/-- Claim C8: the collapser returns the empty string on empty input; a
text with no terminator character is one sentence and comes back
unchanged up to whitespace trimming; and no empty sentence ever enters
the sentence sequence, whatever the text. -/
theorem C8_collapser_edge_cases (t1 t2 : String) (m : Nat) (h1 : 1 ≤ m)
    (h2 : t1.data.all (fun c => !(isTerm c)) = true) :
    _dedupe_repetitions "" m = "" ∧
    _dedupe_repetitions t1 m = String.mk (trimL t1.data) ∧
    [] ∉ sentencesOf t2.data := by
  have hnt : noTermL t1.data := by
    intro x hx
    have h3 := List.all_eq_true.mp h2 x hx
    simpa using h3
  refine ⟨rfl, ?_, ?_⟩
  · unfold _dedupe_repetitions dedupeL
    rw [show sentencesOf t1.data = List.filterMap sentPair [(t1.data, [])] from by
      unfold sentencesOf; rw [splitPunct_noTerm t1.data hnt]]
    by_cases hne : trimL t1.data = []
    · have he : List.filterMap sentPair [(t1.data, [])] = [] := by
        simp [sentPair, hne]
      rw [he]
      rw [show groupRuns [] = [] from rfl, show expandRuns m [] = [] from rfl]
      rw [show joinSp [] = [] from rfl, hne]
      rfl
    · have he : List.filterMap sentPair [(t1.data, [])] = [trimL t1.data] := by
        rw [List.filterMap_cons, (freeSent_of_pair hnt hne).1]
        rfl
      rw [he]
      rw [show groupRuns [trimL t1.data] = [(trimL t1.data, 1)] from rfl]
      rw [expandRuns_cons]
      rw [show min (1 : Nat) m = 1 from by omega]
      rw [show expandRuns m [] = [] from rfl, List.append_nil]
      rw [show List.replicate 1 (trimL t1.data) = [trimL t1.data] from rfl]
      rw [show joinSp [trimL t1.data] = trimL t1.data from rfl]
      rw [trimL_idem]
  · intro hmem
    rcases List.mem_filterMap.mp hmem with ⟨q, _, hq⟩
    by_cases hne : trimL q.1 = []
    · simp [sentPair, hne] at hq
    · cases hq2 : trimL q.1 with
      | nil => exact hne hq2
      | cons c y =>
          have hc : pySpace c = false := goodCore_head_false (goodCore_trimL q.1) hq2
          simp only [sentPair, hne, if_neg, if_false] at hq
          injection hq with hq
          rw [hq2, List.cons_append] at hq
          exact trimL_ne_nil hc hq

/-- Claim C8, instantiated at concrete inputs: a terminator-free text, a
text with whitespace-only material between terminators, and cap two. -/
theorem C8_witness :
    _dedupe_repetitions "" 2 = "" ∧
    _dedupe_repetitions "hello world" 2 = String.mk (trimL ("hello world" : String).data) ∧
    [] ∉ sentencesOf ("a. . ! b." : String).data :=
  C8_collapser_edge_cases "hello world" "a. . ! b." 2 (by decide) (by decide)

/-- Claim C10: the input sentences decompose into consecutive blocks, one
per run, in which every sentence is case-insensitively equal to the
stored run text and the stored run text is exactly the first sentence of
its block; the cleaned list is the emission of min(count, cap) copies of
those stored first occurrences. -/
theorem C10_first_occurrence_replication (text : String) (m : Nat) :
    ∃ blocks : List (List (List Char)),
      sentencesOf text.data = blocks.flatten ∧
      List.Forall₂ (fun b r => b.head? = some r.1 ∧ b.length = r.2 ∧
        ∀ s ∈ b, lowerL s = lowerL r.1) blocks (groupRuns (sentencesOf text.data)) ∧
      cleanedOf text m = expandRuns m (groupRuns (sentencesOf text.data)) := by
  obtain ⟨blocks, hfl, hfa⟩ := groupRuns_blocks (sentencesOf text.data)
  exact ⟨blocks, hfl, hfa, rfl⟩

end WhisperService
